import Mathlib

/-
Verification development for the ypp-explorer repository: a shallow embedding
of the payment-explorer logic (aggregation by channel, paginated fetching,
amount formatting, default table sorting, reload gating) together with proofs
about that embedding.

JavaScript semantics notes reflected in the embedding:
* a JS object literal used as a dictionary is modelled as an association list
  in insertion order; `Object.values` returns the values of array-index keys
  (canonical decimal strings below 2^32 - 1) in ascending numeric order first,
  followed by the values of the remaining keys in insertion order;
* `payment.payeeChannel!.id` on a null `payeeChannel` throws, which the
  embedding models by returning `none` from the aggregation;
* `payment.payeeChannel?.title || "Unknown"` substitutes "Unknown" for a
  null `payeeChannel`, a null `title`, or an empty-string `title`;
* JS `bigint` arithmetic is arbitrary precision and is modelled by `Int`.
-/

set_option linter.unusedVariables false

namespace YppExplorer

/-- Embedded `payeeChannel { id title }` selection of the GraphQL query:
`title` is nullable in the schema. -/
structure Channel where
  id : String
  title : Option String
  deriving DecidableEq, Repr

/-- Embedded `channelPaymentMadeEvents` record of the GraphQL query.
`amount` is a decimal string in the response; `BigInt(amount)` is its integer
value, modelled directly as an `Int` field.  `payeeChannel` is nullable. -/
structure PaymentEvent where
  id : String
  amount : Int
  createdAt : String
  inBlock : Nat
  payeeChannel : Option Channel
  rationale : Option String
  deriving DecidableEq, Repr

/-- Embedded accumulator record of `groupedPayments`:
`{ channelId, channelTitle, totalAmount: bigint, count: number }`. -/
structure ChannelAggregate where
  channelId : String
  channelTitle : String
  totalAmount : Int
  count : Nat
  deriving DecidableEq, Repr

/-- Embeds the JS truthiness fallback `title || "Unknown"` applied to the
nullable `payeeChannel?.title`: null and the empty string are falsy. -/
def titleOrUnknown : Option String → String
  | none => "Unknown"
  | some t => if t = "" then "Unknown" else t

/-- Embeds `acc[channelId].totalAmount += BigInt(payment.amount); acc[channelId].count += 1`. -/
def bumpAgg (amt : Int) (a : ChannelAggregate) : ChannelAggregate :=
  { a with totalAmount := a.totalAmount + amt, count := a.count + 1 }

/-- Applies `bumpAgg` to every entry of the accumulator whose key is `key`
(after insertion the key occurs exactly once, so this is the single JS
property update). -/
def bumpAt (key : String) (amt : Int) (acc : List (String × ChannelAggregate)) :
    List (String × ChannelAggregate) :=
  acc.map fun kv => if kv.1 = key then (kv.1, bumpAgg amt kv.2) else kv

/-- Embeds the fresh entry `{ channelId, channelTitle: payment.payeeChannel?.title || "Unknown", totalAmount: 0n, count: 0 }`. -/
def initAgg (key : String) (title : Option String) : ChannelAggregate :=
  { channelId := key, channelTitle := titleOrUnknown title, totalAmount := 0, count := 0 }

/-- Embeds one iteration of the `payments.reduce` callback in `groupedPayments`.
`payment.payeeChannel!.id` dereferences a nullable field: a null
`payeeChannel` throws, modelled by `none`. -/
def aggStep (acc : List (String × ChannelAggregate)) (p : PaymentEvent) :
    Option (List (String × ChannelAggregate)) :=
  match p.payeeChannel with
  | none => none
  | some ch =>
    let acc1 := if acc.any fun kv => kv.1 == ch.id then acc
                else acc ++ [(ch.id, initAgg ch.id ch.title)]
    some (bumpAt ch.id p.amount acc1)

/-- Embeds the whole `payments.reduce(...)` fold, threading the possibility of
a thrown null dereference. -/
def aggFold : List (String × ChannelAggregate) → List PaymentEvent →
    Option (List (String × ChannelAggregate))
  | acc, [] => some acc
  | acc, p :: ps =>
    match aggStep acc p with
    | none => none
    | some acc1 => aggFold acc1 ps

/-- Numeric value of a decimal digit character. -/
def digitVal (c : Char) : Nat := c.toNat - '0'.toNat

/-- Tests for a decimal digit character. -/
def isDigitChar (c : Char) : Bool := decide ('0' ≤ c) && decide (c ≤ '9')

/-- Value of a big-endian list of decimal digit characters. -/
def natOfDigits (cs : List Char) : Nat := cs.foldl (fun n c => n * 10 + digitVal c) 0

/-- Parses a string consisting only of decimal digits (the parse performed by
`BigInt(raw)` on well-formed input, and the numeric reading used by the JS
array-index test). -/
def strToNat (s : String) : Option Nat :=
  if !s.data.isEmpty && s.data.all isDigitChar then some (natOfDigits s.data) else none

/-- Tests whether a string is a JS array-index property key: the canonical
decimal representation of an integer in `[0, 2^32 - 1)`. -/
def isArrIdx (k : String) : Bool :=
  match strToNat k with
  | some n => decide (toString n = k) && decide (n < 2 ^ 32 - 1)
  | none => false

/-- Numeric value of an array-index key (0 for non-numeric keys, which are
never compared through this function). -/
def idxVal (k : String) : Nat := (strToNat k).getD 0

/-- Insertion step of a generic insertion sort by a boolean comparison. -/
def insertSorted {α : Type} (le : α → α → Bool) (x : α) : List α → List α
  | [] => [x]
  | y :: ys => if le x y then x :: y :: ys else y :: insertSorted le x ys

/-- Generic insertion sort by a boolean comparison. -/
def sortOn {α : Type} (le : α → α → Bool) : List α → List α
  | [] => []
  | x :: xs => insertSorted le x (sortOn le xs)

/-- Comparison of accumulator entries by the numeric value of their key. -/
def pairIdxLe (p q : String × ChannelAggregate) : Bool :=
  decide (idxVal p.1 ≤ idxVal q.1)

/-- Comparison of keys by numeric value. -/
def keyIdxLe (j k : String) : Bool :=
  decide (idxVal j ≤ idxVal k)

/-- Embeds `Object.values(acc)`: array-index keys in ascending numeric order
first, then the remaining keys in insertion order; the values of the entries
are returned in that key order. -/
def objectValues (acc : List (String × ChannelAggregate)) : List ChannelAggregate :=
  (sortOn pairIdxLe (acc.filter fun kv => isArrIdx kv.1) ++
    acc.filter fun kv => !isArrIdx kv.1).map Prod.snd

/-- Embeds the `groupedPayments` memo:
`Object.values(payments.reduce(...))`, propagating a thrown null dereference
as `none`. -/
def groupedPayments (payments : List PaymentEvent) : Option (List ChannelAggregate) :=
  (aggFold [] payments).map objectValues

/-- Channel ids carried by the events of a collection (reference definition
used to state claims; events without a channel contribute nothing). -/
def channelIdsOf (evs : List PaymentEvent) : List String :=
  evs.filterMap fun p => p.payeeChannel.map Channel.id

/-- Reference definition: the distinct elements of a list in order of first
occurrence. -/
def firstSeen : List String → List String
  | [] => []
  | k :: ks => k :: (firstSeen ks).filter fun j => decide (j ≠ k)

/-- Reference definition: the JS own-property order of a list of distinct
keys inserted in the given order — array-index keys ascending first, then the
rest in insertion order. -/
def jsKeyOrder (ks : List String) : List String :=
  sortOn keyIdxLe (ks.filter isArrIdx) ++ ks.filter fun k => !isArrIdx k

/-- Reference definition: the channel title the aggregate of key `k` should
carry — the title of the first event of channel `k`, with the "Unknown"
fallback for an absent or empty title. -/
def refTitle (evs : List PaymentEvent) (k : String) : String :=
  match evs.find? (fun p => p.payeeChannel.any fun c => c.id == k) with
  | some p =>
    match p.payeeChannel with
    | some c => titleOrUnknown c.title
    | none => "Unknown"
  | none => "Unknown"

/-- Keys of the accumulator, in insertion order. -/
def accKeys (acc : List (String × ChannelAggregate)) : List String :=
  acc.map Prod.fst

/-- Sum of the `totalAmount` fields of the accumulator entries. -/
def accTotal (acc : List (String × ChannelAggregate)) : Int :=
  (acc.map fun kv => kv.2.totalAmount).sum

/-- Sum of the `count` fields of the accumulator entries. -/
def accCount (acc : List (String × ChannelAggregate)) : Nat :=
  (acc.map fun kv => kv.2.count).sum

/-- Embedded page size of `fetchPayments`: `const limit = 5000`. -/
def pageLimit : Nat := 5000

/-- Embeds the `while (true)` loop of `fetchPayments`.  The remote data
source is a function from the requested offset to either an error (a failed
`request`) or the returned page.  The loop is not structurally terminating,
so it takes a fuel argument: `none` means the fuel ran out before the loop
finished (the loop would still be running).  On success it returns the
concatenated events together with the number of requests that were issued. -/
def fetchLoop (src : Nat → Except String (List PaymentEvent)) :
    Nat → Nat → List PaymentEvent → Nat →
    Option (Except String (List PaymentEvent × Nat))
  | 0, _, _, _ => none
  | fuel + 1, offset, acc, reqs =>
    match src offset with
    | .error e => some (.error e)
    | .ok page =>
      if page.length < pageLimit then some (.ok (acc ++ page, reqs + 1))
      else fetchLoop src fuel (offset + pageLimit) (acc ++ page) (reqs + 1)

/-- Embeds `fetchPayments`: the loop started at offset 0 with an empty
accumulator. -/
def fetchPayments (src : Nat → Except String (List PaymentEvent)) (fuel : Nat) :
    Option (Except String (List PaymentEvent × Nat)) :=
  fetchLoop src fuel 0 [] 0

/-- Wraps a never-failing data source (every request returns a page). -/
def okSrc (pages : Nat → List PaymentEvent) : Nat → Except String (List PaymentEvent) :=
  fun o => .ok (pages o)

/-- Modelled from the spec: the `dnum` fixed-point formatting library called
by `formatJoy` is a dependency and is not under src/.  Per spec §4.2 the
formatter divides the minor-unit value by 10^10 and renders it with exactly 2
fractional digits using big-integer arithmetic, rounding half up (the table
of §8 fixes the carry behaviour), then appends the currency suffix.  The
value in hundredths is `(n + 5 * 10^7) / 10^8`. -/
def formatJoyNat (n : Nat) : String :=
  let h := (n + 5 * 10 ^ 7) / 10 ^ 8
  toString (h / 100) ++ "." ++ (if h % 100 < 10 then "0" else "") ++
    toString (h % 100) ++ " JOY"

/-- Embeds `formatJoy = (raw) => dn.format([BigInt(raw), 10], { digits: 2 }) + " JOY"`
on a decimal-string input: `BigInt(raw)` parses the decimal string (a
non-numeric string throws, modelled by `none`), and the formatting itself is
the spec-modelled `formatJoyNat`. -/
def formatJoy (raw : String) : Option String :=
  (strToNat raw).map formatJoyNat

/-- Column ids of the grouped column schema of `columns`
(`accessorKey` values, which the table library uses as column ids). -/
def groupedColumnIds : List String :=
  ["channelId", "channelTitle", "totalAmount", "count"]

/-- Column ids of the flat column schema of `columns` (dots in an
`accessorKey` become underscores in the derived column id; no flat column id
is "totalAmount" under either convention). -/
def flatColumnIds : List String :=
  ["id", "payeeChannel_id", "payeeChannel_title", "amount", "inBlock", "rationale"]

/-- Embeds `initialState.sorting = [{ id: "totalAmount", desc: true }]` of the
`useReactTable` call: one sort entry, column id and descending flag. -/
def initialSorting : List (String × Bool) :=
  [("totalAmount", true)]

/-- Numeric sort key of a grouped row: the `totalAmount` column holds the
aggregate's bigint total (the only grouped column the initial sort state can
select). -/
def groupedKey (cid : String) (a : ChannelAggregate) : Int :=
  if cid = "totalAmount" then a.totalAmount else 0

/-- Numeric sort key of a flat row: the `amount` column holds the event's
bigint amount (the only flat column a default amount sort could select). -/
def flatKey (cid : String) (p : PaymentEvent) : Int :=
  if cid = "amount" then p.amount else 0

/-- Modelled from the spec: the table library's sorted row model is a
dependency and is not under src/.  Per the library contract the source relies
on, the sorting state is first restricted to entries whose column id exists
in the active column set (an entry naming an absent column is ignored); the
first remaining entry orders the rows by that column's value, descending when
its flag is set; with no remaining entry the rows keep their input order. -/
def applySorting {α : Type} (colIds : List String) (keyOf : String → α → Int)
    (sorting : List (String × Bool)) (rows : List α) : List α :=
  match sorting.filter fun s => colIds.contains s.1 with
  | [] => rows
  | (cid, desc) :: _ =>
    sortOn (fun a b =>
      if desc then decide (keyOf cid b ≤ keyOf cid a)
      else decide (keyOf cid a ≤ keyOf cid b)) rows

/-- Modelled from the spec: the reload wiring of `CreatorPaymentsExplorer`.
`inFlight` counts the fetches currently running for the "payments" query key.
The component mounts with the initial fetch running. -/
structure ExplorerState where
  inFlight : Nat
  deriving DecidableEq

/-- UI events that can affect the in-flight fetch count: a click on the
"Reload data" button, and the settling (success or failure) of a running
fetch. -/
inductive ExplorerAction where
  | reloadClick
  | fetchSettled
  deriving DecidableEq

/-- Embeds `disabled={isLoading || isFetching}` on the reload button:
`isFetching` is true exactly while a fetch for the key is in flight. -/
def reloadDisabled (s : ExplorerState) : Bool :=
  decide (0 < s.inFlight)

/-- Modelled from the spec: a click on a disabled button is a no-op; an
enabled click calls `refetch()`, starting one fetch; a settling fetch stops
running. -/
def stepExplorer (s : ExplorerState) : ExplorerAction → ExplorerState
  | .reloadClick => if reloadDisabled s then s else { inFlight := s.inFlight + 1 }
  | .fetchSettled => { inFlight := s.inFlight - 1 }

/-- Initial state: the mount-time fetch of the "payments" query is running. -/
def initExplorer : ExplorerState := { inFlight := 1 }

/-- Runs a sequence of UI events from the initial state. -/
def runExplorer (acts : List ExplorerAction) : ExplorerState :=
  acts.foldl stepExplorer initExplorer

/-- Concrete channel with the numeric id "5". -/
def chanFive : Channel := { id := "5", title := some "Alpha" }

/-- Concrete channel with the numeric id "2". -/
def chanTwo : Channel := { id := "2", title := some "Beta" }

/-- Concrete event of channel "5". -/
def evFive : PaymentEvent :=
  { id := "e1", amount := 10, createdAt := "t1", inBlock := 1,
    payeeChannel := some chanFive, rationale := none }

/-- Concrete event of channel "2". -/
def evTwo : PaymentEvent :=
  { id := "e2", amount := 20, createdAt := "t2", inBlock := 2,
    payeeChannel := some chanTwo, rationale := some "r" }

/-- Concrete event whose channel reference is null. -/
def evNull : PaymentEvent :=
  { id := "e0", amount := 3, createdAt := "t0", inBlock := 3,
    payeeChannel := none, rationale := none }

/-- Concrete first event of channel "7": its title is null. -/
def evSevenFirst : PaymentEvent :=
  { id := "e3", amount := 1, createdAt := "t3", inBlock := 4,
    payeeChannel := some { id := "7", title := none }, rationale := none }

/-- Concrete second event of channel "7": it carries a title. -/
def evSevenSecond : PaymentEvent :=
  { id := "e4", amount := 2, createdAt := "t4", inBlock := 5,
    payeeChannel := some { id := "7", title := some "Later" }, rationale := none }

/-- Filler event used to build concrete pages for the fetch scenarios. -/
def evPad : PaymentEvent :=
  { id := "pad", amount := 0, createdAt := "", inBlock := 0,
    payeeChannel := some chanFive, rationale := none }

/-- Concrete full page of `pageLimit` events. -/
def fullPage : List PaymentEvent := List.replicate pageLimit evPad

/-- Concrete short page of 3 events. -/
def shortPage : List PaymentEvent := List.replicate 3 evPad

/-- Concrete source answering offsets 0 and 5000 with full pages and every
later offset with the 3-event page. -/
def srcThreePages : Nat → Except String (List PaymentEvent) :=
  fun o => if o < 2 * pageLimit then .ok fullPage else .ok shortPage

/-- Concrete source answering offsets 0 and 5000 with full pages and every
later offset with an empty page. -/
def srcTwoPages : Nat → Except String (List PaymentEvent) :=
  fun o => if o < 2 * pageLimit then .ok fullPage else .ok ([] : List PaymentEvent)

/-- Concrete source answering offset 0 with a full page and failing at every
later offset. -/
def srcErrLater : Nat → Except String (List PaymentEvent) :=
  fun o => if o = 0 then .ok fullPage else .error "network down"

theorem mem_insertSorted {α : Type} (le : α → α → Bool) (x : α) (l : List α) (y : α) :
    y ∈ insertSorted le x l ↔ y = x ∨ y ∈ l := by
  induction l with
  | nil => simp [insertSorted]
  | cons z zs ih =>
    simp only [insertSorted]
    split
    · simp [List.mem_cons]
    · simp only [List.mem_cons, ih]
      tauto

theorem insertSorted_perm {α : Type} (le : α → α → Bool) (x : α) (l : List α) :
    (insertSorted le x l).Perm (x :: l) := by
  induction l with
  | nil => exact .refl _
  | cons z zs ih =>
    simp only [insertSorted]
    split
    · exact .refl _
    · exact (ih.cons z).trans (List.Perm.swap x z zs)

theorem sortOn_perm {α : Type} (le : α → α → Bool) (l : List α) :
    (sortOn le l).Perm l := by
  induction l with
  | nil => exact .refl _
  | cons x xs ih => exact (insertSorted_perm le x (sortOn le xs)).trans (ih.cons x)

theorem pairwise_insertSorted {α : Type} (le : α → α → Bool)
    (htotal : ∀ a b, le a b = true ∨ le b a = true)
    (htrans : ∀ a b c, le a b = true → le b c = true → le a c = true)
    (x : α) (l : List α) (h : l.Pairwise fun a b => le a b = true) :
    (insertSorted le x l).Pairwise fun a b => le a b = true := by
  induction l with
  | nil => simp [insertSorted]
  | cons z zs ih =>
    rw [List.pairwise_cons] at h
    simp only [insertSorted]
    split
    · rename_i hxz
      refine List.Pairwise.cons ?_ (List.Pairwise.cons h.1 h.2)
      intro b hb
      rcases List.mem_cons.1 hb with rfl | hb
      · exact hxz
      · exact htrans x z b hxz (h.1 b hb)
    · rename_i hxz
      refine List.Pairwise.cons ?_ (ih h.2)
      intro b hb
      rcases (mem_insertSorted le x zs b).1 hb with rfl | hb
      · rcases htotal z b with hzb | hbz
        · exact hzb
        · cases hxz hbz
      · exact h.1 b hb

theorem pairwise_sortOn {α : Type} (le : α → α → Bool)
    (htotal : ∀ a b, le a b = true ∨ le b a = true)
    (htrans : ∀ a b c, le a b = true → le b c = true → le a c = true)
    (l : List α) : (sortOn le l).Pairwise fun a b => le a b = true := by
  induction l with
  | nil => simp [sortOn]
  | cons x xs ih => exact pairwise_insertSorted le htotal htrans x (sortOn le xs) ih

theorem map_insertSorted {α β : Type} (le : α → α → Bool) (le' : β → β → Bool)
    (f : α → β) (hf : ∀ a b, le' (f a) (f b) = le a b) (x : α) (l : List α) :
    (insertSorted le x l).map f = insertSorted le' (f x) (l.map f) := by
  induction l with
  | nil => rfl
  | cons z zs ih =>
    simp only [insertSorted, List.map_cons, hf]
    split
    · simp
    · simp [ih]

theorem map_sortOn {α β : Type} (le : α → α → Bool) (le' : β → β → Bool)
    (f : α → β) (hf : ∀ a b, le' (f a) (f b) = le a b) (l : List α) :
    (sortOn le l).map f = sortOn le' (l.map f) := by
  induction l with
  | nil => rfl
  | cons x xs ih => simp only [sortOn, List.map_cons, map_insertSorted le le' f hf, ih]

theorem map_fst_filter (q : String → Bool) (acc : List (String × ChannelAggregate)) :
    (acc.filter fun kv => q kv.1).map Prod.fst = (accKeys acc).filter q := by
  induction acc with
  | nil => rfl
  | cons kv tl ih =>
    by_cases h : q kv.1 <;> simp [accKeys, List.filter_cons, h] <;>
      simpa [accKeys] using ih

theorem objectValues_perm (acc : List (String × ChannelAggregate)) :
    (objectValues acc).Perm (acc.map Prod.snd) := by
  refine List.Perm.map Prod.snd ?_
  exact ((sortOn_perm pairIdxLe _).append_right _).trans
    (List.filter_append_perm (fun kv => isArrIdx kv.1) acc)

theorem any_key_eq (acc : List (String × ChannelAggregate)) (k : String) :
    (acc.any fun kv => kv.1 == k) = decide (k ∈ accKeys acc) := by
  rw [Bool.eq_iff_iff]
  simp only [List.any_eq_true, beq_iff_eq, decide_eq_true_eq, accKeys, List.mem_map]

theorem accKeys_append (acc1 acc2 : List (String × ChannelAggregate)) :
    accKeys (acc1 ++ acc2) = accKeys acc1 ++ accKeys acc2 := by
  simp [accKeys]

theorem accKeys_bumpAt (key : String) (amt : Int) (acc : List (String × ChannelAggregate)) :
    accKeys (bumpAt key amt acc) = accKeys acc := by
  induction acc with
  | nil => rfl
  | cons kv tl ih =>
    simp only [bumpAt, accKeys, List.map_cons] at *
    by_cases h : kv.1 = key <;> simp [h, ih]

theorem bumpAt_of_not_mem (key : String) (amt : Int)
    (acc : List (String × ChannelAggregate)) (h : key ∉ accKeys acc) :
    bumpAt key amt acc = acc := by
  induction acc with
  | nil => rfl
  | cons kv tl ih =>
    simp only [accKeys, List.map_cons, List.mem_cons] at h
    push_neg at h
    simp only [bumpAt, List.map_cons]
    rw [if_neg (fun hh => h.1 hh.symm)]
    simpa [bumpAt, accKeys] using ih h.2

theorem accTotal_append (acc1 acc2 : List (String × ChannelAggregate)) :
    accTotal (acc1 ++ acc2) = accTotal acc1 + accTotal acc2 := by
  simp [accTotal]

theorem accCount_append (acc1 acc2 : List (String × ChannelAggregate)) :
    accCount (acc1 ++ acc2) = accCount acc1 + accCount acc2 := by
  simp [accCount]

theorem accTotal_bumpAt (key : String) (amt : Int) (acc : List (String × ChannelAggregate))
    (hnd : (accKeys acc).Nodup) (hmem : key ∈ accKeys acc) :
    accTotal (bumpAt key amt acc) = accTotal acc + amt := by
  induction acc with
  | nil => simp [accKeys] at hmem
  | cons kv tl ih =>
    simp only [accKeys, List.map_cons, List.nodup_cons] at hnd
    simp only [accKeys, List.map_cons, List.mem_cons] at hmem
    simp only [bumpAt, List.map_cons]
    by_cases h : kv.1 = key
    · rw [if_pos h]
      have : bumpAt key amt tl = tl := bumpAt_of_not_mem key amt tl (h ▸ hnd.1)
      simp only [bumpAt] at this
      rw [this]
      simp [accTotal, bumpAgg]
      ring
    · rw [if_neg h]
      rcases hmem with hh | hmem
      · exact absurd hh.symm h
      · have := ih hnd.2 hmem
        simp only [bumpAt] at this
        simp [accTotal] at this ⊢
        omega

theorem accCount_bumpAt (key : String) (amt : Int) (acc : List (String × ChannelAggregate))
    (hnd : (accKeys acc).Nodup) (hmem : key ∈ accKeys acc) :
    accCount (bumpAt key amt acc) = accCount acc + 1 := by
  induction acc with
  | nil => simp [accKeys] at hmem
  | cons kv tl ih =>
    simp only [accKeys, List.map_cons, List.nodup_cons] at hnd
    simp only [accKeys, List.map_cons, List.mem_cons] at hmem
    simp only [bumpAt, List.map_cons]
    by_cases h : kv.1 = key
    · rw [if_pos h]
      have : bumpAt key amt tl = tl := bumpAt_of_not_mem key amt tl (h ▸ hnd.1)
      simp only [bumpAt] at this
      rw [this]
      simp [accCount, bumpAgg]
      ring
    · rw [if_neg h]
      rcases hmem with hh | hmem
      · exact absurd hh.symm h
      · have := ih hnd.2 hmem
        simp only [bumpAt] at this
        simp [accCount] at this ⊢
        omega

theorem aggStep_eq_some (acc : List (String × ChannelAggregate)) (p : PaymentEvent)
    (acc1 : List (String × ChannelAggregate)) (h : aggStep acc p = some acc1) :
    ∃ ch, p.payeeChannel = some ch ∧
      ((ch.id ∈ accKeys acc ∧ acc1 = bumpAt ch.id p.amount acc) ∨
       (ch.id ∉ accKeys acc ∧
         acc1 = bumpAt ch.id p.amount (acc ++ [(ch.id, initAgg ch.id ch.title)]))) := by
  cases hp : p.payeeChannel with
  | none => simp [aggStep, hp] at h
  | some ch =>
    refine ⟨ch, rfl, ?_⟩
    simp only [aggStep, hp, any_key_eq] at h
    by_cases hm : ch.id ∈ accKeys acc
    · left
      refine ⟨hm, ?_⟩
      rw [if_pos (by simpa using hm)] at h
      exact (Option.some_inj.1 h).symm
    · right
      refine ⟨hm, ?_⟩
      rw [if_neg (by simpa using hm)] at h
      exact (Option.some_inj.1 h).symm

theorem aggStep_eq_none (acc : List (String × ChannelAggregate)) (p : PaymentEvent) :
    aggStep acc p = none ↔ p.payeeChannel = none := by
  cases hp : p.payeeChannel <;> simp [aggStep, hp]

theorem aggFold_none_iff (evs : List PaymentEvent) :
    ∀ acc, aggFold acc evs = none ↔ ∃ p ∈ evs, p.payeeChannel = none := by
  induction evs with
  | nil => intro acc; simp [aggFold]
  | cons p ps ih =>
    intro acc
    rw [aggFold]
    cases hs : aggStep acc p with
    | none =>
      have hp := (aggStep_eq_none acc p).1 hs
      simp [hp]
    | some acc1 =>
      have hp : p.payeeChannel ≠ none := by
        intro hn
        rw [(aggStep_eq_none acc p).2 hn] at hs
        cases hs
      simp [ih acc1, hp]

theorem aggFold_sums (evs : List PaymentEvent) :
    ∀ acc res, (accKeys acc).Nodup → aggFold acc evs = some res →
      (accKeys res).Nodup ∧
      accTotal res = accTotal acc + (evs.map PaymentEvent.amount).sum ∧
      accCount res = accCount acc + evs.length := by
  induction evs with
  | nil =>
    intro acc res hnd h
    cases h
    simp [hnd]
  | cons p ps ih =>
    intro acc res hnd h
    rw [aggFold] at h
    cases hs : aggStep acc p with
    | none => rw [hs] at h; cases h
    | some acc1 =>
      rw [hs] at h
      obtain ⟨ch, hp, hcase⟩ := aggStep_eq_some acc p acc1 hs
      have hfacts : (accKeys acc1).Nodup ∧
          accTotal acc1 = accTotal acc + p.amount ∧
          accCount acc1 = accCount acc + 1 := by
        rcases hcase with ⟨hm, rfl⟩ | ⟨hm, rfl⟩
        · exact ⟨by rw [accKeys_bumpAt]; exact hnd,
            accTotal_bumpAt ch.id p.amount acc hnd hm,
            accCount_bumpAt ch.id p.amount acc hnd hm⟩
        · have hnd2 : (accKeys (acc ++ [(ch.id, initAgg ch.id ch.title)])).Nodup := by
            rw [accKeys_append, List.nodup_append]
            refine ⟨hnd, by simp [accKeys], ?_⟩
            intro x hx hx2
            simp only [accKeys, List.map_cons, List.map_nil, List.mem_singleton] at hx2
            subst hx2
            exact hm hx
          have hm2 : ch.id ∈ accKeys (acc ++ [(ch.id, initAgg ch.id ch.title)]) := by
            rw [accKeys_append]
            simp [accKeys]
          refine ⟨by rw [accKeys_bumpAt]; exact hnd2, ?_, ?_⟩
          · rw [accTotal_bumpAt ch.id p.amount _ hnd2 hm2, accTotal_append]
            simp [accTotal, initAgg]
          · rw [accCount_bumpAt ch.id p.amount _ hnd2 hm2, accCount_append]
            simp [accCount, initAgg]
      obtain ⟨hnd1, ht1, hc1⟩ := hfacts
      obtain ⟨hndr, htr, hcr⟩ := ih acc1 res hnd1 h
      refine ⟨hndr, ?_, ?_⟩
      · rw [htr, ht1]
        simp [List.sum_cons]
        ring
      · rw [hcr, hc1]
        simp [List.length_cons]
        omega

theorem mem_firstSeen (ks : List String) (x : String) : x ∈ firstSeen ks ↔ x ∈ ks := by
  induction ks with
  | nil => simp [firstSeen]
  | cons k tl ih =>
    simp only [firstSeen, List.mem_cons, List.mem_filter, ih, decide_eq_true_eq]
    by_cases h : x = k <;> simp [h]

theorem nodup_firstSeen (ks : List String) : (firstSeen ks).Nodup := by
  induction ks with
  | nil => simp [firstSeen]
  | cons k tl ih =>
    rw [firstSeen, List.nodup_cons]
    constructor
    · intro hx
      have := (List.mem_filter.1 hx).2
      simp at this
    · exact ih.filter _

theorem aggFold_keys (evs : List PaymentEvent) :
    ∀ acc res, aggFold acc evs = some res →
      accKeys res = accKeys acc ++
        (firstSeen (channelIdsOf evs)).filter fun k => decide (k ∉ accKeys acc) := by
  induction evs with
  | nil =>
    intro acc res h
    cases h
    simp [firstSeen, channelIdsOf]
  | cons p ps ih =>
    intro acc res h
    rw [aggFold] at h
    cases hs : aggStep acc p with
    | none => rw [hs] at h; cases h
    | some acc1 =>
      rw [hs] at h
      obtain ⟨ch, hp, hcase⟩ := aggStep_eq_some acc p acc1 hs
      have hids : channelIdsOf (p :: ps) = ch.id :: channelIdsOf ps := by
        simp [channelIdsOf, hp]
      have hres := ih acc1 res h
      rcases hcase with ⟨hm, rfl⟩ | ⟨hm, rfl⟩
      · rw [accKeys_bumpAt] at hres
        rw [hres, hids, firstSeen, List.filter_cons]
        rw [if_neg (by simpa using hm)]
        congr 1
        rw [List.filter_filter]
        refine List.filter_congr ?_
        intro a _
        by_cases ha : a = ch.id
        · subst ha
          simp [hm]
        · simp [ha]
      · rw [accKeys_bumpAt, accKeys_append] at hres
        rw [hres, hids, firstSeen, List.filter_cons]
        rw [if_pos (by simpa using hm)]
        have hX : (firstSeen (channelIdsOf ps)).filter
              (fun k => decide (k ∉ accKeys acc ++ accKeys [(ch.id, initAgg ch.id ch.title)])) =
            ((firstSeen (channelIdsOf ps)).filter fun j => decide (j ≠ ch.id)).filter
              fun k => decide (k ∉ accKeys acc) := by
          rw [List.filter_filter]
          refine List.filter_congr ?_
          intro a _
          rw [Bool.eq_iff_iff]
          simp only [decide_eq_true_eq, Bool.and_eq_true, List.mem_append, accKeys,
            List.map_cons, List.map_nil, List.mem_singleton, not_or]
        rw [hX]
        simp [accKeys]

theorem mem_bumpAt (key : String) (amt : Int) (acc : List (String × ChannelAggregate))
    (kv : String × ChannelAggregate) (h : kv ∈ bumpAt key amt acc) :
    ∃ kw ∈ acc, kv = if kw.1 = key then (kw.1, bumpAgg amt kw.2) else kw := by
  simp only [bumpAt, List.mem_map] at h
  obtain ⟨kw, hkw, rfl⟩ := h
  exact ⟨kw, hkw, rfl⟩

theorem aggFold_ids (evs : List PaymentEvent) :
    ∀ acc res, aggFold acc evs = some res →
      (∀ kv ∈ acc, kv.2.channelId = kv.1) → ∀ kv ∈ res, kv.2.channelId = kv.1 := by
  induction evs with
  | nil =>
    intro acc res h hacc
    cases h
    exact hacc
  | cons p ps ih =>
    intro acc res h hacc
    rw [aggFold] at h
    cases hs : aggStep acc p with
    | none => rw [hs] at h; cases h
    | some acc1 =>
      rw [hs] at h
      obtain ⟨ch, hp, hcase⟩ := aggStep_eq_some acc p acc1 hs
      refine ih acc1 res h ?_
      have hstep : ∀ acc2, (∀ kv ∈ acc2, kv.2.channelId = kv.1) →
          ∀ kv ∈ bumpAt ch.id p.amount acc2, kv.2.channelId = kv.1 := by
        intro acc2 hacc2 kv hkv
        obtain ⟨kw, hkw, rfl⟩ := mem_bumpAt ch.id p.amount acc2 kv hkv
        by_cases hh : kw.1 = ch.id
        · simp [hh, bumpAgg, hacc2 kw hkw]
        · simp [hh, hacc2 kw hkw]
      rcases hcase with ⟨hm, rfl⟩ | ⟨hm, rfl⟩
      · exact hstep acc hacc
      · refine hstep _ ?_
        intro kv hkv
        rcases List.mem_append.1 hkv with hkv | hkv
        · exact hacc kv hkv
        · rcases List.mem_singleton.1 hkv with rfl
          simp [initAgg]

theorem refTitle_head_eq (p : PaymentEvent) (ps : List PaymentEvent) (ch : Channel)
    (hp : p.payeeChannel = some ch) :
    refTitle (p :: ps) ch.id = titleOrUnknown ch.title := by
  simp [refTitle, List.find?_cons, hp, Option.any]

theorem refTitle_head_ne (p : PaymentEvent) (ps : List PaymentEvent) (ch : Channel)
    (k : String) (hp : p.payeeChannel = some ch) (hne : ch.id ≠ k) :
    refTitle (p :: ps) k = refTitle ps k := by
  simp [refTitle, List.find?_cons, hp, Option.any, hne]

theorem aggFold_titles (evs : List PaymentEvent) :
    ∀ acc res, aggFold acc evs = some res →
      ∀ kv ∈ res,
        (∃ a0, (kv.1, a0) ∈ acc ∧ kv.2.channelTitle = a0.channelTitle) ∨
        (kv.1 ∉ accKeys acc ∧ kv.2.channelTitle = refTitle evs kv.1) := by
  induction evs with
  | nil =>
    intro acc res h kv hkv
    cases h
    left
    exact ⟨kv.2, by simpa using hkv, rfl⟩
  | cons p ps ih =>
    intro acc res h kv hkv
    rw [aggFold] at h
    cases hs : aggStep acc p with
    | none => rw [hs] at h; cases h
    | some acc1 =>
      rw [hs] at h
      obtain ⟨ch, hp, hcase⟩ := aggStep_eq_some acc p acc1 hs
      rcases hcase with ⟨hm, rfl⟩ | ⟨hm, rfl⟩
      · rcases ih _ res h kv hkv with ⟨a0, ha0, htl⟩ | ⟨hnm, htl⟩
        · obtain ⟨kw, hkw, heq⟩ := mem_bumpAt ch.id p.amount acc (kv.1, a0) ha0
          by_cases hh : kw.1 = ch.id
          · rw [if_pos hh] at heq
            rw [Prod.mk.injEq] at heq
            obtain ⟨h1, h2⟩ := heq
            left
            refine ⟨kw.2, ?_, ?_⟩
            · rw [h1]
              exact (Prod.mk.eta (p := kw)) ▸ hkw
            · rw [htl, h2]
              simp [bumpAgg]
          · rw [if_neg hh] at heq
            left
            exact ⟨a0, heq ▸ hkw, htl⟩
        · rw [accKeys_bumpAt] at hnm
          right
          have hne : ch.id ≠ kv.1 := fun hh => hnm (hh ▸ hm)
          rw [refTitle_head_ne p ps ch kv.1 hp hne]
          exact ⟨hnm, htl⟩
      · rcases ih _ res h kv hkv with ⟨a0, ha0, htl⟩ | ⟨hnm, htl⟩
        · obtain ⟨kw, hkw, heq⟩ := mem_bumpAt ch.id p.amount _ (kv.1, a0) ha0
          rcases List.mem_append.1 hkw with hkw | hkw
          · by_cases hh : kw.1 = ch.id
            · exact absurd (hh ▸ (List.mem_map.2 ⟨kw, hkw, rfl⟩ : kw.1 ∈ accKeys acc)) hm
            · rw [if_neg hh] at heq
              left
              exact ⟨a0, heq ▸ hkw, htl⟩
          · rcases List.mem_singleton.1 hkw with rfl
            rw [if_pos rfl] at heq
            rw [Prod.mk.injEq] at heq
            obtain ⟨h1, h2⟩ := heq
            right
            refine ⟨h1 ▸ hm, ?_⟩
            rw [h1, refTitle_head_eq p ps ch hp, htl, h2]
            simp [bumpAgg, initAgg]
        · rw [accKeys_bumpAt, accKeys_append] at hnm
          have hnm1 : kv.1 ∉ accKeys acc := fun hh => hnm (List.mem_append.2 (.inl hh))
          have hne : ch.id ≠ kv.1 := by
            intro hh
            exact hnm (List.mem_append.2 (.inr (by simp [accKeys, hh])))
          right
          rw [refTitle_head_ne p ps ch kv.1 hp hne]
          exact ⟨hnm1, htl⟩

theorem objectValues_keys (acc : List (String × ChannelAggregate))
    (hids : ∀ kv ∈ acc, kv.2.channelId = kv.1) :
    (objectValues acc).map ChannelAggregate.channelId = jsKeyOrder (accKeys acc) := by
  have hmemX : ∀ kv ∈ sortOn pairIdxLe (acc.filter fun kv => isArrIdx kv.1),
      (ChannelAggregate.channelId ∘ Prod.snd) kv = Prod.fst kv := by
    intro kv hkv
    exact hids kv (List.mem_of_mem_filter ((sortOn_perm pairIdxLe _).mem_iff.1 hkv))
  have hmemY : ∀ kv ∈ acc.filter (fun kv => !isArrIdx kv.1),
      (ChannelAggregate.channelId ∘ Prod.snd) kv = Prod.fst kv :=
    fun kv hkv => hids kv (List.mem_of_mem_filter hkv)
  unfold objectValues jsKeyOrder
  rw [List.map_map, List.map_append, List.map_congr_left hmemX, List.map_congr_left hmemY]
  rw [map_sortOn pairIdxLe keyIdxLe Prod.fst (fun a b => rfl)]
  rw [map_fst_filter isArrIdx acc, map_fst_filter (fun k => !isArrIdx k) acc]

theorem fetchLoop_succ (src : Nat → Except String (List PaymentEvent)) (fuel offset : Nat)
    (acc : List PaymentEvent) (reqs : Nat) :
    fetchLoop src (fuel + 1) offset acc reqs =
      match src offset with
      | .error e => some (.error e)
      | .ok page =>
        if page.length < pageLimit then some (.ok (acc ++ page, reqs + 1))
        else fetchLoop src fuel (offset + pageLimit) (acc ++ page) (reqs + 1) := rfl

theorem fetchLoop_succ_ok (src : Nat → Except String (List PaymentEvent)) (fuel offset : Nat)
    (acc : List PaymentEvent) (reqs : Nat) (page : List PaymentEvent)
    (h : src offset = .ok page) :
    fetchLoop src (fuel + 1) offset acc reqs =
      if page.length < pageLimit then some (.ok (acc ++ page, reqs + 1))
      else fetchLoop src fuel (offset + pageLimit) (acc ++ page) (reqs + 1) := by
  rw [fetchLoop_succ, h]

theorem fetchLoop_succ_err (src : Nat → Except String (List PaymentEvent)) (fuel offset : Nat)
    (acc : List PaymentEvent) (reqs : Nat) (e : String) (h : src offset = .error e) :
    fetchLoop src (fuel + 1) offset acc reqs = some (.error e) := by
  rw [fetchLoop_succ, h]

theorem fetchLoop_error (src : Nat → Except String (List PaymentEvent)) (e : String) :
    ∀ (k offset : Nat) (acc : List PaymentEvent) (reqs fuel : Nat),
      (∀ j, j < k → ∃ page, src (offset + pageLimit * j) = .ok page ∧ page.length = pageLimit) →
      src (offset + pageLimit * k) = .error e → k < fuel →
      fetchLoop src fuel offset acc reqs = some (.error e) := by
  intro k
  induction k with
  | zero =>
    intro offset acc reqs fuel hfull herr hfuel
    obtain ⟨f, rfl⟩ : ∃ f, fuel = f + 1 := ⟨fuel - 1, by omega⟩
    simp only [Nat.mul_zero, Nat.add_zero] at herr
    exact fetchLoop_succ_err src f offset acc reqs e herr
  | succ k ih =>
    intro offset acc reqs fuel hfull herr hfuel
    obtain ⟨f, rfl⟩ : ∃ f, fuel = f + 1 := ⟨fuel - 1, by omega⟩
    obtain ⟨page, hpage, hlen⟩ := hfull 0 (Nat.succ_pos k)
    simp only [Nat.mul_zero, Nat.add_zero] at hpage
    rw [fetchLoop_succ_ok src f offset acc reqs page hpage]
    rw [if_neg (by omega)]
    refine ih (offset + pageLimit) (acc ++ page) (reqs + 1) f ?_ ?_ (by omega)
    · intro j hj
      obtain ⟨pg, hpg, hl⟩ := hfull (j + 1) (by omega)
      refine ⟨pg, ?_, hl⟩
      rw [← hpg]
      congr 1
      ring
    · rw [← herr]
      congr 1
      ring

theorem fetchLoop_ok_short (pages : Nat → List PaymentEvent) :
    ∀ (fuel offset : Nat) (acc : List PaymentEvent) (reqs : Nat)
      (r : Except String (List PaymentEvent × Nat)),
      fetchLoop (okSrc pages) fuel offset acc reqs = some r →
      ∃ k, (pages (offset + pageLimit * k)).length < pageLimit := by
  intro fuel
  induction fuel with
  | zero => intro offset acc reqs r h; cases h
  | succ f ih =>
    intro offset acc reqs r h
    rw [fetchLoop_succ_ok (okSrc pages) f offset acc reqs (pages offset) rfl] at h
    by_cases hlen : (pages offset).length < pageLimit
    · exact ⟨0, by simpa using hlen⟩
    · rw [if_neg hlen] at h
      obtain ⟨k, hk⟩ := ih (offset + pageLimit) _ _ r h
      refine ⟨k + 1, ?_⟩
      rw [show offset + pageLimit * (k + 1) = offset + pageLimit + pageLimit * k by ring]
      exact hk

theorem fetchLoop_short_ok (pages : Nat → List PaymentEvent) :
    ∀ (k offset : Nat) (acc : List PaymentEvent) (reqs : Nat),
      (∀ j, j < k → ¬ (pages (offset + pageLimit * j)).length < pageLimit) →
      (pages (offset + pageLimit * k)).length < pageLimit →
      ∃ r, fetchLoop (okSrc pages) (k + 1) offset acc reqs = some r := by
  intro k
  induction k with
  | zero =>
    intro offset acc reqs hfull hshort
    refine ⟨.ok (acc ++ pages offset, reqs + 1), ?_⟩
    rw [fetchLoop_succ_ok (okSrc pages) 0 offset acc reqs (pages offset) rfl]
    rw [if_pos (by simpa using hshort)]
  | succ k ih =>
    intro offset acc reqs hfull hshort
    have h0 := hfull 0 (Nat.succ_pos k)
    simp only [Nat.mul_zero, Nat.add_zero] at h0
    rw [fetchLoop_succ_ok (okSrc pages) (k + 1) offset acc reqs (pages offset) rfl]
    rw [if_neg h0]
    refine ih (offset + pageLimit) (acc ++ pages offset) (reqs + 1) ?_ ?_
    · intro j hj
      have hh := hfull (j + 1) (by omega)
      rw [show offset + pageLimit * (j + 1) = offset + pageLimit + pageLimit * j by ring] at hh
      exact hh
    · rw [show offset + pageLimit + pageLimit * k = offset + pageLimit * (k + 1) by ring]
      exact hshort

/-- C1: for every event collection on which the aggregator produces its
aggregates (the reduce does not throw), the sum of `totalAmount` over all
produced `ChannelAggregate`s equals the sum of `amount` over all input
events, and the sum of `count` equals the number of input events; amount
arithmetic is carried out in arbitrary-precision integers (JS `bigint`,
embedded as `Int`). -/
theorem grouped_payments_conservation (evs : List PaymentEvent)
    (aggs : List ChannelAggregate) (h : groupedPayments evs = some aggs) :
    (aggs.map ChannelAggregate.totalAmount).sum = (evs.map PaymentEvent.amount).sum ∧
    (aggs.map ChannelAggregate.count).sum = evs.length := by
  obtain ⟨res, hres, rfl⟩ := Option.map_eq_some'.1 h
  obtain ⟨-, ht, hc⟩ := aggFold_sums evs [] res (by simp [accKeys]) hres
  have hperm : ((objectValues res).map ChannelAggregate.totalAmount).Perm
      ((res.map Prod.snd).map ChannelAggregate.totalAmount) :=
    (objectValues_perm res).map _
  have hperm2 : ((objectValues res).map ChannelAggregate.count).Perm
      ((res.map Prod.snd).map ChannelAggregate.count) :=
    (objectValues_perm res).map _
  constructor
  · rw [hperm.sum_eq, List.map_map]
    simpa [accTotal, Function.comp] using ht
  · rw [hperm2.sum_eq, List.map_map]
    simpa [accCount, Function.comp] using hc

/-- Witness for C1: the conservation equations hold at a concrete three-event
collection spanning three channels. -/
theorem grouped_payments_conservation_witness :
    groupedPayments [evFive, evTwo, evSevenFirst] = some
      [⟨"2", "Beta", 20, 1⟩, ⟨"5", "Alpha", 10, 1⟩, ⟨"7", "Unknown", 1, 1⟩] ∧
    (([⟨"2", "Beta", 20, 1⟩, ⟨"5", "Alpha", 10, 1⟩, ⟨"7", "Unknown", 1, 1⟩] :
        List ChannelAggregate).map ChannelAggregate.totalAmount).sum =
      ([evFive, evTwo, evSevenFirst].map PaymentEvent.amount).sum ∧
    (([⟨"2", "Beta", 20, 1⟩, ⟨"5", "Alpha", 10, 1⟩, ⟨"7", "Unknown", 1, 1⟩] :
        List ChannelAggregate).map ChannelAggregate.count).sum =
      [evFive, evTwo, evSevenFirst].length :=
  ⟨by decide,
    (grouped_payments_conservation [evFive, evTwo, evSevenFirst] _ (by decide)).1,
    (grouped_payments_conservation [evFive, evTwo, evSevenFirst] _ (by decide)).2⟩

/-- C2 counterexample: aggregating a single event whose channel reference is
null does not place it in an "Unknown" bucket — the reduce dereferences the
null channel (`payment.payeeChannel!.id`) and the aggregation fails,
producing no aggregates at all. -/
theorem grouped_payments_missing_channel_fails :
    groupedPayments [evNull] = none := by decide

/-- C2 amended: the aggregation fails exactly when some event's channel
reference is missing or null; the "Unknown" fallback applies only to the
channel title, never to a missing channel reference. -/
theorem grouped_payments_none_iff_missing_channel (evs : List PaymentEvent) :
    groupedPayments evs = none ↔ ∃ p ∈ evs, p.payeeChannel = none := by
  rw [groupedPayments, Option.map_eq_none']
  exact aggFold_none_iff evs []

/-- C10: on every event collection the aggregator accepts, the
`channelTitle` of each produced aggregate is the title carried by the
first-seen event of that channel id, with "Unknown" substituted when that
first title is absent or empty; titles on later events of the same channel
never affect the aggregate. -/
theorem grouped_payments_first_seen_titles (evs : List PaymentEvent)
    (aggs : List ChannelAggregate) (h : groupedPayments evs = some aggs) :
    ∀ a ∈ aggs, a.channelTitle = refTitle evs a.channelId := by
  obtain ⟨res, hres, rfl⟩ := Option.map_eq_some'.1 h
  intro a ha
  have hmem : a ∈ res.map Prod.snd := (objectValues_perm res).mem_iff.1 ha
  obtain ⟨kv, hkv, rfl⟩ := List.mem_map.1 hmem
  have hid : kv.2.channelId = kv.1 :=
    aggFold_ids evs [] res hres (by simp) kv hkv
  rcases aggFold_titles evs [] res hres kv hkv with ⟨a0, ha0, -⟩ | ⟨-, htl⟩
  · simp at ha0
  · rw [hid]
    exact htl

/-- Witness for C10: a channel whose first event carries a null title and
whose second event carries the title "Later" aggregates with the title
"Unknown". -/
theorem grouped_payments_first_seen_titles_witness :
    groupedPayments [evSevenFirst, evSevenSecond] = some [⟨"7", "Unknown", 3, 2⟩] ∧
    ∀ a ∈ ([⟨"7", "Unknown", 3, 2⟩] : List ChannelAggregate),
      a.channelTitle = refTitle [evSevenFirst, evSevenSecond] a.channelId :=
  ⟨by decide,
    grouped_payments_first_seen_titles [evSevenFirst, evSevenSecond] _ (by decide)⟩

/-- C5 counterexample: two events whose channset ids are the numeric strings
"5" then "2" aggregate to the key order ["2", "5"] (the JS object orders
array-index keys numerically), not the first-occurrence order ["5", "2"]
that the claim requires. -/
theorem grouped_payments_order_counterexample :
    (groupedPayments [evFive, evTwo]).map (List.map ChannelAggregate.channelId) =
      some ["2", "5"] ∧
    firstSeen (channelIdsOf [evFive, evTwo]) = ["5", "2"] ∧
    (["2", "5"] : List String) ≠ ["5", "2"] :=
  ⟨by decide, by decide, by decide⟩

/-- C5 amended: the aggregator produces exactly one aggregate per distinct
channel id observed, ordered by the JS own-property order of the accumulator
object: channel ids that are array-index strings come first in ascending
numeric order, followed by the remaining channel ids in order of first
occurrence. -/
theorem grouped_payments_key_order (evs : List PaymentEvent)
    (aggs : List ChannelAggregate) (h : groupedPayments evs = some aggs) :
    aggs.map ChannelAggregate.channelId = jsKeyOrder (firstSeen (channelIdsOf evs)) ∧
    (aggs.map ChannelAggregate.channelId).Nodup ∧
    (∀ k, k ∈ aggs.map ChannelAggregate.channelId ↔ k ∈ channelIdsOf evs) := by
  obtain ⟨res, hres, rfl⟩ := Option.map_eq_some'.1 h
  have hids := aggFold_ids evs [] res hres (by simp)
  have hkeys := aggFold_keys evs [] res hres
  have hkeys' : accKeys res = firstSeen (channelIdsOf evs) := by
    simpa [accKeys] using hkeys
  have hmapeq : List.map (ChannelAggregate.channelId ∘ Prod.snd) res = List.map Prod.fst res :=
    List.map_congr_left fun kv hkv => hids kv hkv
  have hperm : ((objectValues res).map ChannelAggregate.channelId).Perm (accKeys res) := by
    refine ((objectValues_perm res).map ChannelAggregate.channelId).trans ?_
    rw [List.map_map, hmapeq]
    exact .refl _
  refine ⟨?_, ?_, ?_⟩
  · rw [objectValues_keys res hids, hkeys']
  · rw [hperm.nodup_iff, hkeys']
    exact nodup_firstSeen _
  · intro k
    rw [hperm.mem_iff, hkeys', mem_firstSeen]

/-- Witness for C5 amended at the concrete two-event collection. -/
theorem grouped_payments_key_order_witness :
    groupedPayments [evFive, evTwo] = some
      [⟨"2", "Beta", 20, 1⟩, ⟨"5", "Alpha", 10, 1⟩] ∧
    (([⟨"2", "Beta", 20, 1⟩, ⟨"5", "Alpha", 10, 1⟩] :
        List ChannelAggregate).map ChannelAggregate.channelId =
      jsKeyOrder (firstSeen (channelIdsOf [evFive, evTwo])) ∧
    (([⟨"2", "Beta", 20, 1⟩, ⟨"5", "Alpha", 10, 1⟩] :
        List ChannelAggregate).map ChannelAggregate.channelId).Nodup ∧
    (∀ k, k ∈ ([⟨"2", "Beta", 20, 1⟩, ⟨"5", "Alpha", 10, 1⟩] :
        List ChannelAggregate).map ChannelAggregate.channelId ↔
      k ∈ channelIdsOf [evFive, evTwo])) :=
  ⟨by decide, grouped_payments_key_order [evFive, evTwo] _ (by decide)⟩

/-- C3 (the `dnum` formatting dependency is not under src/, so the rendering
is modelled from the spec): on a non-negative integer decimal string with 10
implicit fractional digits the formatter renders the value divided by 10^10
with exactly 2 fractional digits and the " JOY" suffix.  The three literal
table entries of the spec hold; moreover for every minor-unit value (hence
in particular all values up to 2^64) the rendering is exact big-integer
arithmetic: the rendered hundredths value is the half-up rounding of
n / 10^8, within half a rendered unit of the exact scaled value. -/
theorem format_joy_spec :
    formatJoy "12345678901234" = some "1234.57 JOY" ∧
    formatJoy "0" = some "0.00 JOY" ∧
    formatJoy "99999999995" = some "10.00 JOY" ∧
    (∀ n : Nat, ∃ whole frac : Nat, frac < 100 ∧
      formatJoyNat n = toString whole ++ "." ++
        (if frac < 10 then "0" else "") ++ toString frac ++ " JOY" ∧
      100 * whole + frac = (n + 5 * 10 ^ 7) / 10 ^ 8) ∧
    (∀ n : Nat, |(((n + 5 * 10 ^ 7) / 10 ^ 8 : Nat) : Int) * 10 ^ 8 - n| ≤ 5 * 10 ^ 7) := by
  refine ⟨by decide, by decide, by decide, ?_, ?_⟩
  · intro n
    exact ⟨(n + 5 * 10 ^ 7) / 10 ^ 8 / 100, (n + 5 * 10 ^ 7) / 10 ^ 8 % 100,
      Nat.mod_lt _ (by norm_num), rfl, by omega⟩
  · intro n
    rw [abs_le]
    constructor <;> omega

/-- C4: the paginated fetcher starts at offset 0 with fixed page size 5000,
stops on the first page strictly shorter than 5000, and concatenates the
pages in order: a source with pages of sizes [5000, 5000, 3] at offsets
0/5000/10000 yields all 10003 events in exactly three requests, and a source
with pages [5000, 5000, 0] yields 10000 events, the trailing empty request
completing normally as a no-op rather than an error. -/
theorem fetch_payments_pagination
    (srcA srcB : Nat → Except String (List PaymentEvent))
    (p0 p1 p2 q0 q1 : List PaymentEvent)
    (hA0 : srcA 0 = .ok p0) (hA1 : srcA 5000 = .ok p1) (hA2 : srcA 10000 = .ok p2)
    (hl0 : p0.length = 5000) (hl1 : p1.length = 5000) (hl2 : p2.length = 3)
    (hB0 : srcB 0 = .ok q0) (hB1 : srcB 5000 = .ok q1)
    (hB2 : srcB 10000 = .ok ([] : List PaymentEvent))
    (hm0 : q0.length = 5000) (hm1 : q1.length = 5000) :
    ((p0 ++ p1 ++ p2).length = 10003 ∧
      ∀ fuel, 3 ≤ fuel → fetchPayments srcA fuel = some (.ok (p0 ++ p1 ++ p2, 3))) ∧
    ((q0 ++ q1).length = 10000 ∧
      ∀ fuel, 3 ≤ fuel → fetchPayments srcB fuel = some (.ok (q0 ++ q1, 3))) := by
  constructor
  · refine ⟨by simp [hl0, hl1, hl2], ?_⟩
    intro fuel hf
    obtain ⟨f, rfl⟩ : ∃ f, fuel = f + 3 := ⟨fuel - 3, by omega⟩
    show fetchLoop srcA (f + 3) 0 [] 0 = _
    rw [show f + 3 = (f + 2) + 1 from rfl,
      fetchLoop_succ_ok srcA (f + 2) 0 [] 0 p0 hA0,
      if_neg (show ¬(p0.length < pageLimit) by simp only [pageLimit]; omega)]
    show fetchLoop srcA (f + 2) 5000 p0 1 = _
    rw [show f + 2 = (f + 1) + 1 from rfl,
      fetchLoop_succ_ok srcA (f + 1) 5000 p0 1 p1 hA1,
      if_neg (show ¬(p1.length < pageLimit) by simp only [pageLimit]; omega)]
    show fetchLoop srcA (f + 1) 10000 (p0 ++ p1) 2 = _
    rw [show f + 1 = f + 1 from rfl,
      fetchLoop_succ_ok srcA f 10000 (p0 ++ p1) 2 p2 hA2,
      if_pos (show p2.length < pageLimit by simp only [pageLimit]; omega)]
  · refine ⟨by simp [hm0, hm1], ?_⟩
    intro fuel hf
    obtain ⟨f, rfl⟩ : ∃ f, fuel = f + 3 := ⟨fuel - 3, by omega⟩
    show fetchLoop srcB (f + 3) 0 [] 0 = _
    rw [show f + 3 = (f + 2) + 1 from rfl,
      fetchLoop_succ_ok srcB (f + 2) 0 [] 0 q0 hB0,
      if_neg (show ¬(q0.length < pageLimit) by simp only [pageLimit]; omega)]
    show fetchLoop srcB (f + 2) 5000 q0 1 = _
    rw [show f + 2 = (f + 1) + 1 from rfl,
      fetchLoop_succ_ok srcB (f + 1) 5000 q0 1 q1 hB1,
      if_neg (show ¬(q1.length < pageLimit) by simp only [pageLimit]; omega)]
    show fetchLoop srcB (f + 1) 10000 (q0 ++ q1) 2 = _
    rw [show f + 1 = f + 1 from rfl,
      fetchLoop_succ_ok srcB f 10000 (q0 ++ q1) 2 ([] : List PaymentEvent) hB2,
      if_pos (show ([] : List PaymentEvent).length < pageLimit by simp [pageLimit])]
    rw [List.append_nil]

/-- Witness for C4 at the two concrete sources built from replicated pages. -/
theorem fetch_payments_pagination_witness :
    ((fullPage ++ fullPage ++ shortPage).length = 10003 ∧
      ∀ fuel, 3 ≤ fuel →
        fetchPayments srcThreePages fuel = some (.ok (fullPage ++ fullPage ++ shortPage, 3))) ∧
    ((fullPage ++ fullPage).length = 10000 ∧
      ∀ fuel, 3 ≤ fuel →
        fetchPayments srcTwoPages fuel = some (.ok (fullPage ++ fullPage, 3))) :=
  fetch_payments_pagination srcThreePages srcTwoPages fullPage fullPage shortPage
    fullPage fullPage
    rfl rfl rfl
    (by simp only [fullPage, List.length_replicate, pageLimit])
    (by simp only [fullPage, List.length_replicate, pageLimit])
    (by simp only [shortPage, List.length_replicate])
    rfl rfl rfl
    (by simp only [fullPage, List.length_replicate, pageLimit])
    (by simp only [fullPage, List.length_replicate, pageLimit])

/-- C6: if the request at page k of the multi-page fetch fails after k full
pages, the whole fetch fails with that error surfaced as-is, independently
of how much fuel remains (no retry), and the caller receives only the error
— none of the k pages already fetched is delivered, so a previously
displayed dataset is left untouched. -/
theorem fetch_payments_error_aborts (src : Nat → Except String (List PaymentEvent))
    (k : Nat) (e : String)
    (hfull : ∀ j, j < k → ∃ page, src (pageLimit * j) = .ok page ∧ page.length = pageLimit)
    (herr : src (pageLimit * k) = .error e) :
    ∀ fuel, k < fuel → fetchPayments src fuel = some (.error e) := by
  intro fuel hfuel
  show fetchLoop src fuel 0 [] 0 = _
  refine fetchLoop_error src e k 0 [] 0 fuel ?_ ?_ hfuel
  · intro j hj
    simpa using hfull j hj
  · simpa using herr

/-- Witness for C6: a source failing on the second request aborts the fetch
with exactly that error. -/
theorem fetch_payments_error_aborts_witness :
    fetchPayments srcErrLater 5 = some (.error "network down") :=
  fetch_payments_error_aborts srcErrLater 1 "network down"
    (by
      intro j hj
      have hj0 : j = 0 := by omega
      subst hj0
      exact ⟨fullPage, rfl, by simp only [fullPage, List.length_replicate]⟩)
    rfl 5 (by omega)

/-- C9: for a data source that answers every request with a page, the fetch
loop terminates (some fuel suffices) exactly when some offset that is a
multiple of 5000 receives a page of strictly fewer than 5000 records, and a
source answering every offset with a full 5000-record page makes the loop
run forever (no fuel ever completes it). -/
theorem fetch_loop_termination_iff (pages : Nat → List PaymentEvent) :
    ((∃ fuel r, fetchPayments (okSrc pages) fuel = some r) ↔
      ∃ k, (pages (pageLimit * k)).length < pageLimit) ∧
    ((∀ o, (pages o).length = pageLimit) →
      ∀ fuel, fetchPayments (okSrc pages) fuel = none) := by
  constructor
  · constructor
    · rintro ⟨fuel, r, h⟩
      obtain ⟨k, hk⟩ := fetchLoop_ok_short pages fuel 0 [] 0 r h
      exact ⟨k, by simpa using hk⟩
    · intro hex
      have hspec : (pages (pageLimit * Nat.find hex)).length < pageLimit :=
        Nat.find_spec hex
      have hmin : ∀ j, j < Nat.find hex → ¬ (pages (pageLimit * j)).length < pageLimit :=
        fun j hj => Nat.find_min hex hj
      obtain ⟨r, hr⟩ := fetchLoop_short_ok pages (Nat.find hex) 0 [] 0
        (by intro j hj; simpa using hmin j hj) (by simpa using hspec)
      exact ⟨Nat.find hex + 1, r, hr⟩
  · intro hall fuel
    cases hres : fetchPayments (okSrc pages) fuel with
    | none => rfl
    | some r =>
      obtain ⟨k, hk⟩ := fetchLoop_ok_short pages fuel 0 [] 0 r hres
      rw [hall] at hk
      omega

/-- Witness for C9: the all-full-pages source never lets the loop finish,
and accordingly no multiple-of-5000 offset carries a short page. -/
theorem fetch_loop_termination_iff_witness :
    (∀ o : Nat, ((fun _ : Nat => fullPage) o).length = pageLimit) ∧
    (∀ fuel, fetchPayments (okSrc fun _ : Nat => fullPage) fuel = none) :=
  ⟨fun o => by simp only [fullPage, List.length_replicate],
    (fetch_loop_termination_iff fun _ : Nat => fullPage).2 fun o => by
      simp only [fullPage, List.length_replicate]⟩

/-- C7 counterexample: with no user sort interaction the ungrouped (flat)
view is not sorted by amount descending — the initial sort state names the
column id "totalAmount", which is absent from the flat column set, so the
flat rows keep their source order (here ascending amounts) instead of the
descending order the claim requires. -/
theorem default_sort_flat_counterexample :
    applySorting flatColumnIds flatKey initialSorting [evFive, evTwo] = [evFive, evTwo] ∧
    evFive.amount < evTwo.amount ∧
    ([evFive, evTwo] : List PaymentEvent) ≠ [evTwo, evFive] :=
  ⟨by decide, by decide, by decide⟩

/-- C7 amended: with no user sort interaction, grouped mode is sorted by
total amount descending (a permutation of the grouped rows, pairwise in
descending `totalAmount` order), while ungrouped mode keeps the source
order unchanged, because the single initial sort entry carries the column
id "totalAmount", which exists in the grouped column set but not in the
flat one. -/
theorem default_sort_behavior (aggs : List ChannelAggregate) (evs : List PaymentEvent) :
    (applySorting groupedColumnIds groupedKey initialSorting aggs).Pairwise
      (fun a b => b.totalAmount ≤ a.totalAmount) ∧
    (applySorting groupedColumnIds groupedKey initialSorting aggs).Perm aggs ∧
    applySorting flatColumnIds flatKey initialSorting evs = evs := by
  have hg : initialSorting.filter (fun s => groupedColumnIds.contains s.1) =
      [("totalAmount", true)] := by decide
  have hf : initialSorting.filter (fun s => flatColumnIds.contains s.1) = [] := by decide
  have eg : applySorting groupedColumnIds groupedKey initialSorting aggs =
      sortOn (fun a b => decide (b.totalAmount ≤ a.totalAmount)) aggs := by
    simp only [applySorting, hg]
    rfl
  refine ⟨?_, ?_, ?_⟩
  · rw [eg]
    have hp := pairwise_sortOn (fun a b : ChannelAggregate => decide (b.totalAmount ≤ a.totalAmount))
      (fun a b => by
        simp only [decide_eq_true_eq]
        exact le_total b.totalAmount a.totalAmount)
      (fun a b c hab hbc => by
        simp only [decide_eq_true_eq] at hab hbc ⊢
        exact le_trans hbc hab)
      aggs
    refine hp.imp ?_
    intro a b hab
    simpa using hab
  · rw [eg]
    exact sortOn_perm _ _
  · simp only [applySorting, hf]

/-- C8 (modelled from the spec: the query library's in-flight bookkeeping
and the disabled-button semantics are dependencies not under src/): in
every state reachable from the mounted component by reload clicks and
fetch settlings, at most one fetch for the "payments" query key is in
flight — the reload button is disabled while a fetch is pending
(`disabled={isLoading || isFetching}`), so triggering reload never starts a
second concurrent fetch. -/
theorem reload_single_fetch_in_flight (acts : List ExplorerAction) :
    (runExplorer acts).inFlight ≤ 1 := by
  suffices key : ∀ (l : List ExplorerAction) (s : ExplorerState), s.inFlight ≤ 1 →
      (l.foldl stepExplorer s).inFlight ≤ 1 from
    key acts initExplorer (by simp [initExplorer])
  intro l
  induction l with
  | nil => intro s hs; exact hs
  | cons a tl ih =>
    intro s hs
    rw [List.foldl_cons]
    refine ih _ ?_
    cases a with
    | reloadClick =>
      by_cases h : reloadDisabled s = true
      · simpa [stepExplorer, h] using hs
      · have h0 : s.inFlight = 0 := by
          simp only [reloadDisabled, decide_eq_true_eq] at h
          omega
        simp [stepExplorer, h, h0]
    | fetchSettled =>
      simp only [stepExplorer]
      omega

end YppExplorer
